import Mathlib

/-!
Verification of `superzip.py` (`ziplus`): a generalized zip over N sequences
with per-column fill policies, embedded shallowly.

Modelling notes, mirroring the source:
* A Python value appearing in a row is one of: the element of a sequence
  (`Cell.elem`), Python `None` (`Cell.noneV`), or — in a branch that is
  unreachable in any actual run — the `StopIteration` class itself used as a
  plain value (`Cell.stopItCls`); see the already-stopped fill branch below.
* A `defaults` entry is dispatched by the source with
  `defaults[i] is StopIteration`, `isinstance(defaults[i], Exception)`,
  `defaults[i] is Previous`, else a plain constant; these four disjoint cases
  are the constructors of `ZControl`.
* The generator keeps, per column: the iterator (`rem`, the not-yet-consumed
  suffix), the sticky `stopped[i]` flag, and the value this column took in the
  row built most recently (`prev`, the source's `previous[i]`).  The source's
  separate first-row builder (lines 112-131) differs from the in-loop builder
  (lines 140-160) only in using `None` where the loop uses `previous[i]`; we
  obtain it by initializing every `prev` to `Cell.noneV`.
* The source's `n_stopped < n_items` loop condition is expressed as
  "some `stopped` flag is still `false`": `n_stopped` is incremented exactly
  when a flag flips from `False` to `True`, so the two are equal.
-/

/-- A value occupying one cell of a produced row. -/
inductive Cell (α : Type) where
  | noneV : Cell α
  | elem : α → Cell α
  | stopItCls : Cell α
deriving DecidableEq, Repr

/-- One entry of the `defaults` argument, by the source's dispatch:
`StopIteration` (the class), an exception instance, the `Previous` sentinel,
or any other value used as a constant fill. -/
inductive ZControl (α ε : Type) where
  | stopIt : ZControl α ε
  | previous : ZControl α ε
  | exc : ε → ZControl α ε
  | val : Cell α → ZControl α ε
deriving DecidableEq, Repr

/-- Per-column generator state: the fill policy `defaults[i]`, the unconsumed
suffix of the iterator `items[i]`, the sticky `stopped[i]` flag, and
`previous[i]`, the cell this column held in the most recently built row
(initialized to `Cell.noneV`, which is what the first-row builder substitutes
for `Previous`). -/
structure Column (α ε : Type) where
  default : ZControl α ε
  rem : List α
  stopped : Bool
  prev : Cell α
deriving DecidableEq, Repr

/-- Result of building one row across all columns (source lines 112-131 and
140-160): a clean `return` triggered by a `StopIteration` default
(`fullStop`, carrying the column states as left at the `return`), an
exception raised by an exception-instance default (`raised`), or a completed
row (`next`, the row being the `prev` fields of the updated columns). -/
inductive StepOut (α ε : Type) where
  | fullStop : List (Column α ε) → StepOut α ε
  | raised : ε → StepOut α ε
  | next : List (Column α ε) → StepOut α ε
deriving DecidableEq, Repr

/-- The fill value appended for an exhausted column
(`previous[i] if defaults[i] is Previous else defaults[i]`, source lines 131
and 159-160).  The `stopIt` branch appends the `StopIteration` class itself,
exactly as the source expression would; it is unreachable in a real run. -/
def fillCell {α ε : Type} (c : Column α ε) : Cell α :=
  match c.default with
  | .previous => c.prev
  | .val v => v
  | .stopIt => .stopItCls
  | .exc _ => .noneV

/-- Prepend a resolved column onto the outcome of processing the remaining
columns of the step. -/
def StepOut.consCol {α ε : Type} (c : Column α ε) : StepOut α ε → StepOut α ε
  | .fullStop cs => .fullStop (c :: cs)
  | .raised e => .raised e
  | .next cs => .next (c :: cs)

/-- Build one row, scanning columns left to right (the `for i in i_items`
body, source lines 112-131 / 140-160): an unstopped column pulls its next
value; on exhaustion the flag is set and a `StopIteration` default returns at
once; an exception-instance default raises; otherwise the fill value is
substituted. -/
def zstep {α ε : Type} : List (Column α ε) → StepOut α ε
  | [] => .next []
  | c :: cs =>
    if c.stopped then
      match c.default with
      | .exc e => .raised e
      | _ => (zstep cs).consCol { c with prev := fillCell c }
    else
      match c.rem with
      | x :: rest => (zstep cs).consCol { c with rem := rest, prev := .elem x }
      | [] =>
        match c.default with
        | .stopIt => .fullStop ({ c with stopped := true } :: cs)
        | .exc e => .raised e
        | _ => (zstep cs).consCol { c with stopped := true, prev := fillCell c }

/-- Outcome of running the generator from some point on: the list of rows it
yields, and whether it ends by returning (`ok`) or by raising (`raised`). -/
inductive RunOut (α ε : Type) where
  | ok : List (List (Cell α)) → RunOut α ε
  | raised : List (List (Cell α)) → ε → RunOut α ε
deriving DecidableEq, Repr

/-- Prepend one yielded row to a run outcome. -/
def RunOut.consRow {α ε : Type} (v : List (Cell α)) : RunOut α ε → RunOut α ε
  | .ok rows => .ok (v :: rows)
  | .raised rows e => .raised (v :: rows) e

/-- The rows a run outcome yielded, whether it ended cleanly or raised. -/
def RunOut.rows {α ε : Type} : RunOut α ε → List (List (Cell α))
  | .ok rows => rows
  | .raised rows _ => rows

/-- Termination measure for the generator loop: each unstopped column can
still contribute its remaining elements plus one exhaustion event. -/
def colMeasure {α ε : Type} (c : Column α ε) : Nat :=
  c.rem.length + (if c.stopped then 0 else 1)

/-- Sum of the per-column measures. -/
def colsMeasure {α ε : Type} (cols : List (Column α ε)) : Nat :=
  (cols.map colMeasure).sum

theorem consCol_next {α ε : Type} (c : Column α ε) (o : StepOut α ε)
    (cs' : List (Column α ε)) (h : o.consCol c = .next cs') :
    ∃ cs'', o = .next cs'' ∧ cs' = c :: cs'' := by
  cases o with
  | fullStop cs => simp [StepOut.consCol] at h
  | raised e => simp [StepOut.consCol] at h
  | next cs => exact ⟨cs, rfl, by simpa [StepOut.consCol] using h.symm⟩

theorem zstep_measure_le {α ε : Type} :
    ∀ (cols cols' : List (Column α ε)), zstep cols = .next cols' →
      colsMeasure cols' ≤ colsMeasure cols := by
  intro cols
  induction cols with
  | nil =>
    intro cols' h
    simp [zstep] at h
    simp [h.symm]
  | cons c cs ih =>
    intro cols' h
    simp only [zstep] at h
    by_cases hst : c.stopped
    · simp only [hst, if_true] at h
      cases hd : c.default with
      | exc e => rw [hd] at h; exact absurd h (by simp)
      | stopIt =>
        rw [hd] at h
        obtain ⟨cs'', ho, rfl⟩ := consCol_next _ _ _ h
        have := ih cs'' ho
        simp only [colsMeasure] at this
        simp [colsMeasure, colMeasure, hst]
        omega
      | previous =>
        rw [hd] at h
        obtain ⟨cs'', ho, rfl⟩ := consCol_next _ _ _ h
        have := ih cs'' ho
        simp only [colsMeasure] at this
        simp [colsMeasure, colMeasure, hst]
        omega
      | val v =>
        rw [hd] at h
        obtain ⟨cs'', ho, rfl⟩ := consCol_next _ _ _ h
        have := ih cs'' ho
        simp only [colsMeasure] at this
        simp [colsMeasure, colMeasure, hst]
        omega
    · simp only [hst, if_false] at h
      cases hr : c.rem with
      | cons x rest =>
        rw [hr] at h
        obtain ⟨cs'', ho, rfl⟩ := consCol_next _ _ _ h
        have := ih cs'' ho
        simp only [colsMeasure] at this
        simp [colsMeasure, colMeasure, hst, hr]
        omega
      | nil =>
        rw [hr] at h
        cases hd : c.default with
        | stopIt => rw [hd] at h; exact absurd h (by simp)
        | exc e => rw [hd] at h; exact absurd h (by simp)
        | previous =>
          rw [hd] at h
          obtain ⟨cs'', ho, rfl⟩ := consCol_next _ _ _ h
          have := ih cs'' ho
          simp only [colsMeasure] at this
          simp [colsMeasure, colMeasure, hst, hr]
          omega
        | val v =>
          rw [hd] at h
          obtain ⟨cs'', ho, rfl⟩ := consCol_next _ _ _ h
          have := ih cs'' ho
          simp only [colsMeasure] at this
          simp [colsMeasure, colMeasure, hst, hr]
          omega

theorem zstep_measure_lt {α ε : Type} :
    ∀ (cols cols' : List (Column α ε)),
      cols.any (fun c => !c.stopped) = true → zstep cols = .next cols' →
      colsMeasure cols' < colsMeasure cols := by
  intro cols
  induction cols with
  | nil => intro cols' hany; simp at hany
  | cons c cs ih =>
    intro cols' hany h
    simp only [zstep] at h
    by_cases hst : c.stopped
    · simp only [hst, if_true] at h
      have hany' : cs.any (fun c => !c.stopped) = true := by
        simp [List.any_cons, hst] at hany
        simpa using hany
      cases hd : c.default with
      | exc e => rw [hd] at h; exact absurd h (by simp)
      | stopIt =>
        rw [hd] at h
        obtain ⟨cs'', ho, rfl⟩ := consCol_next _ _ _ h
        have := ih cs'' hany' ho
        simp only [colsMeasure] at this
        simp [colsMeasure, colMeasure, hst]
        omega
      | previous =>
        rw [hd] at h
        obtain ⟨cs'', ho, rfl⟩ := consCol_next _ _ _ h
        have := ih cs'' hany' ho
        simp only [colsMeasure] at this
        simp [colsMeasure, colMeasure, hst]
        omega
      | val v =>
        rw [hd] at h
        obtain ⟨cs'', ho, rfl⟩ := consCol_next _ _ _ h
        have := ih cs'' hany' ho
        simp only [colsMeasure] at this
        simp [colsMeasure, colMeasure, hst]
        omega
    · simp only [hst, if_false] at h
      cases hr : c.rem with
      | cons x rest =>
        rw [hr] at h
        obtain ⟨cs'', ho, rfl⟩ := consCol_next _ _ _ h
        have := zstep_measure_le cs cs'' ho
        simp only [colsMeasure] at this
        simp [colsMeasure, colMeasure, hst, hr]
        omega
      | nil =>
        rw [hr] at h
        cases hd : c.default with
        | stopIt => rw [hd] at h; exact absurd h (by simp)
        | exc e => rw [hd] at h; exact absurd h (by simp)
        | previous =>
          rw [hd] at h
          obtain ⟨cs'', ho, rfl⟩ := consCol_next _ _ _ h
          have := zstep_measure_le cs cs'' ho
          simp only [colsMeasure] at this
          simp [colsMeasure, colMeasure, hst, hr]
          omega
        | val v =>
          rw [hd] at h
          obtain ⟨cs'', ho, rfl⟩ := consCol_next _ _ _ h
          have := zstep_measure_le cs cs'' ho
          simp only [colsMeasure] at this
          simp [colsMeasure, colMeasure, hst, hr]
          omega

/-- The generator loop from the point where a row has just been built and
sits in the `prev` fields (source lines 132-160): while some column is still
unstopped (`n_stopped < n_items`), yield the current row, build the next one,
and continue; a `fullStop` or `raised` during the build ends the run after
the yield. -/
def zloop {α ε : Type} (cols : List (Column α ε)) : RunOut α ε :=
  if h : cols.any (fun c => !c.stopped) = true then
    match hs : zstep cols with
    | .fullStop _ => .ok [cols.map Column.prev]
    | .raised e => .raised [cols.map Column.prev] e
    | .next cols' => (zloop cols').consRow (cols.map Column.prev)
  else .ok []
termination_by colsMeasure cols
decreasing_by exact zstep_measure_lt cols cols' h hs

/-- The generator body after validation: build the first row (source lines
111-131), then run the loop. -/
def zrun {α ε : Type} (cols : List (Column α ε)) : RunOut α ε :=
  match zstep cols with
  | .fullStop _ => .ok []
  | .raised e => .raised [] e
  | .next cols' => zloop cols'

/-- One positional argument of `ziplus`: an iterable (a finite sequence of
values) or a non-iterable scalar. -/
inductive ZArg (α : Type) where
  | seq : List α → ZArg α
  | scalar : α → ZArg α
deriving DecidableEq, Repr

/-- `iter(i if isinstance(i, Iterable) else (i,))` (source lines 105-106). -/
def ZArg.toItems {α : Type} : ZArg α → List α
  | .seq xs => xs
  | .scalar a => [a]

/-- The `defaults` keyword argument: omitted (`None`), a proper sequence of
control values, or a non-`Sequence` object (whose contents are never
inspected). -/
inductive DefaultsArg (α ε : Type) where
  | noneArg : DefaultsArg α ε
  | seqArg : List (ZControl α ε) → DefaultsArg α ε
  | nonSeqArg : DefaultsArg α ε

/-- The observable outcome of calling and draining `ziplus`: a `ValueError`
from argument validation, or a run (its rows plus how it ended). -/
inductive ZiplusOut (α ε : Type) where
  | valueError : String → ZiplusOut α ε
  | run : RunOut α ε → ZiplusOut α ε
deriving DecidableEq, Repr

/-- Initial column states: policy, full sequence, unstopped, `prev` primed
with `Cell.noneV` (the first-row builder's `None`). -/
def initCols {α ε : Type} (ds : List (ZControl α ε)) (items : List (List α)) :
    List (Column α ε) :=
  List.zipWith (fun d xs => ⟨d, xs, false, Cell.noneV⟩) ds items

/-- `ziplus(*iterables, defaults=...)` (source lines 97-160): default the
policies to all `StopIteration`, reject a non-`Sequence` or wrong-length
`defaults` with `ValueError`, wrap scalars, then run the generator. -/
def ziplus {α ε : Type} (iterables : List (ZArg α)) (defaults : DefaultsArg α ε) :
    ZiplusOut α ε :=
  let nItems := iterables.length
  match defaults with
  | .noneArg =>
      .run (zrun (initCols (List.replicate nItems .stopIt) (iterables.map ZArg.toItems)))
  | .nonSeqArg => .valueError "defaults expects a Sequence"
  | .seqArg ds =>
      if ds.length ≠ nItems then .valueError "Bad defaults length"
      else .run (zrun (initCols ds (iterables.map ZArg.toItems)))

/-- The rows an invocation yields before ending (empty for a `ValueError`). -/
def ZiplusOut.rows {α ε : Type} : ZiplusOut α ε → List (List (Cell α))
  | .valueError _ => []
  | .run r => r.rows

/-! ## Closed-form description of a run

A run is determined by arithmetic on the sequence lengths: column `i` pulls
its `j`-th element at step `j` while `j < len i`, is exhausted from step
`len i` on, and an exhausted column with a `StopIteration` or exception
default aborts the run the first time it is reached after exhaustion.  The
definitions below express this directly; the characterization theorem proves
them equal to the generator. -/

/-- View an optional lookup as a row cell. -/
def cellOf {α : Type} : Option α → Cell α
  | some a => .elem a
  | none => .noneV

/-- The fill value a column with policy `d` and underlying sequence `L`
settles on after exhaustion: its last element for `Previous` (`noneV` when
the sequence was empty and the first row's `None` is propagated), the
constant for a plain value. -/
def fillC {α ε : Type} (d : ZControl α ε) (L : List α) : Cell α :=
  match d with
  | .previous => cellOf L.getLast?
  | .val v => v
  | .stopIt => .stopItCls
  | .exc _ => .noneV

/-- The cell column `(d, L)` resolves at step `j`: the `j`-th element while
it lasts, the fill value afterwards. -/
def cellC {α ε : Type} (d : ZControl α ε) (L : List α) (j : Nat) : Cell α :=
  match L[j]? with
  | some a => .elem a
  | none => fillC d L

/-- The row built at step `j`. -/
def rowC {α ε : Type} (ds : List (ZControl α ε)) (Ls : List (List α)) (j : Nat) :
    List (Cell α) :=
  List.zipWith (fun d L => cellC d L j) ds Ls

/-- The first `k` rows. -/
def rowsC {α ε : Type} (ds : List (ZControl α ε)) (Ls : List (List α)) (k : Nat) :
    List (List (Cell α)) :=
  (List.range k).map (rowC ds Ls)

/-- Length of the longest sequence. -/
def maxLen {α : Type} (Ls : List (List α)) : Nat :=
  (Ls.map List.length).foldr max 0

/-- Policies that abort the run when their column is exhausted. -/
def isAbort {α ε : Type} : ZControl α ε → Bool
  | .stopIt => true
  | .exc _ => true
  | _ => false

/-- The lengths of the sequences attached to aborting policies. -/
def abortLens {α ε : Type} (ds : List (ZControl α ε)) (Ls : List (List α)) :
    List Nat :=
  (List.zip ds Ls).filterMap (fun p => if isAbort p.1 then some p.2.length else none)

/-- The step at which the run aborts: the least length of a sequence with an
aborting policy, `none` when no policy aborts. -/
def minAbort {α ε : Type} (ds : List (ZControl α ε)) (Ls : List (List α)) :
    Option Nat :=
  match abortLens ds Ls with
  | [] => none
  | a :: rest => some (rest.foldr min a)

/-- Closed form of a run: with no aborting policy the run yields one row per
step until every column is exhausted; otherwise it ends during the build
following row `s - 1`, where `s` is the abort step, cleanly or with the
exception according to the leftmost column that fires there. -/
def closedRun {α ε : Type} (ds : List (ZControl α ε)) (Ls : List (List α)) :
    RunOut α ε :=
  match minAbort ds Ls with
  | none => .ok (rowsC ds Ls (maxLen Ls))
  | some s =>
    match (List.zip ds Ls).find? (fun p => isAbort p.1 && p.2.length == s) with
    | some (ZControl.exc e, _) => .raised (rowsC ds Ls s) e
    | _ => .ok (rowsC ds Ls s)

/-! ## Aligned column states -/

/-- The `prev` cell held when `s` builds have completed: `noneV` before the
first build, otherwise the cell of row `s - 1`. -/
def prevA {α ε : Type} (d : ZControl α ε) (L : List α) : Nat → Cell α
  | 0 => .noneV
  | s + 1 => cellC d L s

/-- The state of column `(d, L)` when `s` builds have completed. -/
def colA {α ε : Type} (d : ZControl α ε) (L : List α) (s : Nat) : Column α ε :=
  ⟨d, L.drop s, decide (L.length < s), prevA d L s⟩

/-- All column states when `s` builds have completed. -/
def colsA {α ε : Type} (ds : List (ZControl α ε)) (Ls : List (List α)) (s : Nat) :
    List (Column α ε) :=
  List.zipWith (fun d L => colA d L s) ds Ls

/-- Is `d` an exception-instance policy? -/
def isExc {α ε : Type} : ZControl α ε → Bool
  | .exc _ => true
  | _ => false

/-- Does processing this column abort the build: an already-stopped column
with an exception policy, or a column about to exhaust whose policy aborts. -/
def colFires {α ε : Type} (c : Column α ε) : Bool :=
  if c.stopped then isExc c.default
  else c.rem.isEmpty && isAbort c.default

/-- The state a non-firing column is left in by one build. -/
def advanceCol {α ε : Type} (c : Column α ε) : Column α ε :=
  if c.stopped then { c with prev := fillCell c }
  else
    match c.rem with
    | x :: rest => { c with rem := rest, prev := .elem x }
    | [] => { c with stopped := true, prev := fillCell c }

/-- Rows `a, a+1, ..., b-1` of the closed form. -/
def rowsFromC {α ε : Type} (ds : List (ZControl α ε)) (Ls : List (List α))
    (a b : Nat) : List (List (Cell α)) :=
  (List.range' a (b - a)).map (rowC ds Ls)

/-- The run outcome from yield-index `a` on: rows `a ..` of the closed form,
ending as `closedRun` ends. -/
def closedFrom {α ε : Type} (ds : List (ZControl α ε)) (Ls : List (List α))
    (a : Nat) : RunOut α ε :=
  match minAbort ds Ls with
  | none => .ok (rowsFromC ds Ls a (maxLen Ls))
  | some t =>
    match (List.zip ds Ls).find? (fun p => isAbort p.1 && p.2.length == t) with
    | some (ZControl.exc e, _) => .raised (rowsFromC ds Ls a t) e
    | _ => .ok (rowsFromC ds Ls a t)

/-! ## Example data from the docstring/spec: `range(10)`,
`reversed(range(10))`, `"abcdef"` -/

/-- `range(10)` as a column of the mixed-type value universe. -/
def exSeq1 : List (Nat ⊕ Char) := (List.range 10).map Sum.inl

/-- `reversed(range(10))`. -/
def exSeq2 : List (Nat ⊕ Char) := ((List.range 10).reverse).map Sum.inl

/-- The string `"abcdef"`, a sequence of its characters. -/
def exSeq3 : List (Nat ⊕ Char) := "abcdef".toList.map Sum.inr

/-- Modelled from the spec's words for the refinement claim: the minimum of
the sequence lengths (`min(len(seq) for seq in sequences)`), 0 for no
sequences. -/
def minLenSpec {α : Type} : List (List α) → Nat
  | [] => 0
  | L :: rest => List.foldr min L.length (rest.map List.length)

/-- Modelled from the spec's words for the refinement claim: the standard
truncating zip has `minLenSpec` rows, and row `j` is the tuple of the `j`-th
elements of the sequences. -/
def truncZipSpec {α : Type} (Ls : List (List α)) : List (List (Cell α)) :=
  (List.range (minLenSpec Ls)).map (fun j => Ls.map (fun L => cellOf L[j]?))


/-! ## The generator walks through aligned states -/

theorem prevA_stopped {α ε : Type} (d : ZControl α ε) (L : List α) (s : Nat)
    (h : L.length ≤ s) : prevA d L (s + 1) = fillC d L := by
  simp [prevA, cellC, List.getElem?_eq_none h]

theorem prevA_eq_fill_of_lt {α ε : Type} (d : ZControl α ε) (L : List α) (s : Nat)
    (h : L.length < s) : prevA d L s = fillC d L := by
  obtain ⟨s', rfl⟩ : ∃ s', s = s' + 1 := ⟨s - 1, by omega⟩
  exact prevA_stopped d L s' (by omega)

theorem initCols_eq_colsA {α ε : Type} (ds : List (ZControl α ε))
    (Ls : List (List α)) : initCols ds Ls = colsA ds Ls 0 := by
  have hfun : (fun (d : ZControl α ε) (xs : List α) =>
      (⟨d, xs, false, Cell.noneV⟩ : Column α ε)) = fun d xs => colA d xs 0 := by
    funext d xs
    simp [colA, prevA]
  rw [initCols, colsA, hfun]

theorem colFires_colA {α ε : Type} (d : ZControl α ε) (L : List α) (s : Nat)
    (h : isAbort d = true → s < L.length) : colFires (colA d L s) = false := by
  by_cases hls : L.length < s
  · have hab : isAbort d = false := by
      cases hab : isAbort d
      · rfl
      · exact absurd (h hab) (by omega)
    have hex : isExc d = false := by
      cases d <;> simp_all [isAbort, isExc]
    simp [colFires, colA, hls, hex]
  · have hstop : decide (L.length < s) = false := by simp [hls]
    simp only [colFires, colA, hstop, Bool.false_eq_true, if_false]
    by_cases hab : isAbort d = true
    · have hlt := h hab
      have hne : (L.drop s).isEmpty = false := by
        rw [Bool.eq_false_iff]
        simp only [ne_eq, List.isEmpty_iff]
        intro hnil
        have hdl := congrArg List.length hnil
        rw [List.length_drop] at hdl
        simp at hdl
        omega
      simp [hne]
    · simp [Bool.eq_false_iff.mpr hab]

theorem advanceCol_colA {α ε : Type} (d : ZControl α ε) (L : List α) (s : Nat)
    (h : isAbort d = true → s < L.length) :
    advanceCol (colA d L s) = colA d L (s + 1) := by
  rcases Nat.lt_or_ge s L.length with hs | hs
  · -- the pull succeeds
    have hdrop := List.drop_eq_getElem_cons hs
    have hstop : decide (L.length < s) = false := by simp; omega
    have hstop' : decide (L.length < s + 1) = false := by simp; omega
    simp only [advanceCol, colA, hstop, Bool.false_eq_true, if_false, hdrop]
    simp only [hstop', prevA, cellC, List.getElem?_eq_getElem hs]
  · rcases Nat.lt_or_ge L.length s with hls | hls
    · -- already stopped before this build
      have hab : isAbort d = false := by
        cases hab : isAbort d
        · rfl
        · exact absurd (h hab) (by omega)
      have hstop : decide (L.length < s) = true := by simp [hls]
      have hstop' : decide (L.length < s + 1) = true := by simp; omega
      have hdrop : L.drop s = [] := List.drop_eq_nil_of_le (by omega)
      have hdrop' : L.drop (s + 1) = [] := List.drop_eq_nil_of_le (by omega)
      simp only [advanceCol, colA, hstop, if_true, hdrop, hdrop']
      have hprev : prevA d L s = fillC d L := prevA_eq_fill_of_lt d L s hls
      have hprev' : prevA d L (s + 1) = fillC d L := prevA_stopped d L s (by omega)
      cases d with
      | stopIt => simp [isAbort] at hab
      | exc e => simp [isAbort] at hab
      | previous =>
        simp [fillCell, hprev, hprev', fillC]
        omega
      | val v =>
        simp [fillCell, hprev, hprev', fillC]
        omega
    · -- the column exhausts during this build
      have hlen : L.length = s := by omega
      have hab : isAbort d = false := by
        cases hab : isAbort d
        · rfl
        · exact absurd (h hab) (by omega)
      have hstop : decide (L.length < s) = false := by simp; omega
      have hstop' : decide (L.length < s + 1) = true := by simp; omega
      have hdrop : L.drop s = [] := List.drop_eq_nil_of_le (by omega)
      have hdrop' : L.drop (s + 1) = [] := List.drop_eq_nil_of_le (by omega)
      have hprev' : prevA d L (s + 1) = fillC d L := prevA_stopped d L s (by omega)
      simp only [advanceCol, colA, hstop, Bool.false_eq_true, if_false, hdrop, hdrop']
      cases d with
      | stopIt => simp [isAbort] at hab
      | exc e => simp [isAbort] at hab
      | previous =>
        simp only [fillCell, hprev', fillC]
        cases hs0 : s with
        | zero =>
          have : L = [] := by
            cases L with
            | nil => rfl
            | cons x xs => simp [hs0] at hlen
          simp [this, prevA, cellOf]
        | succ s' =>
          have hidx : s' < L.length := by omega
          simp [prevA, cellC, List.getElem?_eq_getElem hidx,
            List.getLast?_eq_getElem? L, cellOf,
            List.getElem?_eq_getElem (show L.length - 1 < L.length by omega),
            show L.length - 1 = s' by omega]
          omega
      | val v =>
        simp [fillCell, hprev', fillC]
        omega

theorem zstep_cons_nofire {α ε : Type} (c : Column α ε) (cs : List (Column α ε))
    (h : colFires c = false) :
    zstep (c :: cs) = (zstep cs).consCol (advanceCol c) := by
  by_cases hst : c.stopped
  · cases hd : c.default with
    | exc e => simp [colFires, hst, isExc, hd] at h
    | stopIt => simp [zstep, advanceCol, hst, hd]
    | previous => simp [zstep, advanceCol, hst, hd]
    | val v => simp [zstep, advanceCol, hst, hd]
  · cases hr : c.rem with
    | cons x rest => simp [zstep, advanceCol, hst, hr]
    | nil =>
      have hab : isAbort c.default = false := by
        simp [colFires, hst, hr, List.isEmpty_iff] at h
        exact h
      cases hd : c.default with
      | stopIt => simp [hd, isAbort] at hab
      | exc e => simp [hd, isAbort] at hab
      | previous => simp [zstep, advanceCol, hst, hr, hd]
      | val v => simp [zstep, advanceCol, hst, hr, hd]

theorem zstep_colsA {α ε : Type} :
    ∀ (ds : List (ZControl α ε)) (Ls : List (List α)) (s : Nat),
      (∀ p ∈ List.zip ds Ls, isAbort p.1 = true → s < p.2.length) →
      zstep (colsA ds Ls s) = .next (colsA ds Ls (s + 1)) := by
  intro ds
  induction ds with
  | nil =>
    intro Ls s _
    simp [colsA, zstep]
  | cons d ds ih =>
    intro Ls s hf
    cases Ls with
    | nil => simp [colsA, zstep]
    | cons L Ls =>
      have hd : isAbort d = true → s < L.length := by
        intro hab
        exact hf (d, L) (by rw [List.zip_cons_cons]; exact List.mem_cons_self _ _) hab
      have hrest : ∀ p ∈ List.zip ds Ls, isAbort p.1 = true → s < p.2.length := by
        intro p hp
        exact hf p (by rw [List.zip_cons_cons]; exact List.mem_cons_of_mem _ hp)
      rw [colsA, List.zipWith_cons_cons,
        zstep_cons_nofire _ _ (colFires_colA d L s hd), advanceCol_colA d L s hd]
      rw [show List.zipWith (fun d L => colA d L s) ds Ls = colsA ds Ls s from rfl,
        ih Ls s hrest]
      simp [StepOut.consCol, colsA, List.zipWith_cons_cons]

theorem map_prev_colsA {α ε : Type} (ds : List (ZControl α ε))
    (Ls : List (List α)) (s : Nat) :
    (colsA ds Ls (s + 1)).map Column.prev = rowC ds Ls s := by
  rw [colsA, List.map_zipWith]
  rfl

theorem zstep_colsA_abort {α ε : Type} :
    ∀ (ds : List (ZControl α ε)) (Ls : List (List α)) (s : Nat)
      (pr : ZControl α ε × List α),
      (∀ p ∈ List.zip ds Ls, isAbort p.1 = true → s ≤ p.2.length) →
      (List.zip ds Ls).find? (fun p => isAbort p.1 && p.2.length == s) = some pr →
      (pr.1 = ZControl.stopIt ∧ ∃ cs, zstep (colsA ds Ls s) = .fullStop cs) ∨
      (∃ e, pr.1 = ZControl.exc e ∧ zstep (colsA ds Ls s) = .raised e) := by
  intro ds
  induction ds with
  | nil =>
    intro Ls s pr _ hfind
    simp [List.zip] at hfind
  | cons d ds ih =>
    intro Ls s pr hmin hfind
    cases Ls with
    | nil => simp [List.zip] at hfind
    | cons L Ls =>
      rw [List.zip_cons_cons] at hfind
      by_cases hp : (isAbort d && L.length == s) = true
      · simp only [List.find?_cons, hp] at hfind
        have hpr : pr = (d, L) := by
          injection hfind with h
          exact h.symm
        subst hpr
        obtain ⟨hab, hlen'⟩ : isAbort d = true ∧ L.length = s := by simpa using hp
        have hstop : decide (L.length < s) = false := by simp; omega
        have hdrop : L.drop s = [] := List.drop_eq_nil_of_le (by omega)
        cases d with
        | previous => simp [isAbort] at hab
        | val v => simp [isAbort] at hab
        | stopIt =>
          left
          refine ⟨rfl, ?_⟩
          rw [colsA, List.zipWith_cons_cons]
          refine ⟨{colA ZControl.stopIt L s with stopped := true} ::
            List.zipWith (fun d L => colA d L s) ds Ls, ?_⟩
          simp [zstep, colA, hstop, hdrop]
        | exc e =>
          right
          refine ⟨e, rfl, ?_⟩
          rw [colsA, List.zipWith_cons_cons]
          simp [zstep, colA, hstop, hdrop]
      · have hpf : (isAbort d && L.length == s) = false := by
          simpa using hp
        simp only [List.find?_cons, hpf] at hfind
        have hd : isAbort d = true → s < L.length := by
          intro hab
          have hle : s ≤ L.length := hmin (d, L)
            (by rw [List.zip_cons_cons]; exact List.mem_cons_self _ _) hab
          have hne : L.length ≠ s := by
            intro heq
            exact hp (by simp [hab, heq])
          omega
        have hrest : ∀ p ∈ List.zip ds Ls, isAbort p.1 = true → s ≤ p.2.length := by
          intro p hp'
          exact hmin p (by rw [List.zip_cons_cons]; exact List.mem_cons_of_mem _ hp')
        rw [colsA, List.zipWith_cons_cons,
          zstep_cons_nofire _ _ (colFires_colA d L s hd)]
        rcases ih Ls s pr hrest hfind with ⟨h1, cs, h2⟩ | ⟨e, h1, h2⟩
        · left
          refine ⟨h1, advanceCol (colA d L s) :: cs, ?_⟩
          rw [show List.zipWith (fun d L => colA d L s) ds Ls = colsA ds Ls s from rfl,
            h2]
          rfl
        · right
          refine ⟨e, h1, ?_⟩
          rw [show List.zipWith (fun d L => colA d L s) ds Ls = colsA ds Ls s from rfl,
            h2]
          rfl

/-! ## Arithmetic helpers about the abort step and the longest column -/

theorem maxLen_cons {α : Type} (L : List α) (Ls : List (List α)) :
    maxLen (L :: Ls) = max L.length (maxLen Ls) := rfl

theorem length_le_maxLen {α : Type} (Ls : List (List α)) (L : List α)
    (h : L ∈ Ls) : L.length ≤ maxLen Ls := by
  induction Ls with
  | nil => simp at h
  | cons X Ls ih =>
    rw [maxLen_cons]
    rcases List.mem_cons.mp h with rfl | h'
    · exact le_max_left _ _
    · exact le_trans (ih h') (le_max_right _ _)

theorem exists_of_le_maxLen {α : Type} (Ls : List (List α)) (s : Nat)
    (h1 : 1 ≤ s) (h2 : s ≤ maxLen Ls) : ∃ L ∈ Ls, s ≤ L.length := by
  induction Ls with
  | nil =>
    simp [maxLen] at h2
    omega
  | cons X Ls ih =>
    rw [maxLen_cons] at h2
    rcases le_max_iff.mp h2 with h | h
    · exact ⟨X, List.mem_cons_self _ _, h⟩
    · obtain ⟨L, hL, hsL⟩ := ih h
      exact ⟨L, List.mem_cons_of_mem _ hL, hsL⟩

theorem foldr_min_mem (a : Nat) (l : List Nat) : l.foldr min a ∈ a :: l := by
  induction l with
  | nil => simp
  | cons x l ih =>
    simp only [List.foldr_cons]
    rcases min_choice x (l.foldr min a) with h | h
    · rw [h]
      simp
    · rw [h]
      rcases List.mem_cons.mp ih with h' | h'
      · simp [h']
      · exact List.mem_cons_of_mem _ (List.mem_cons_of_mem _ h')

theorem foldr_min_le (a : Nat) (l : List Nat) : ∀ x ∈ a :: l, l.foldr min a ≤ x := by
  induction l with
  | nil =>
    intro x hx
    simp only [List.foldr_nil]
    simp at hx
    omega
  | cons y l ih =>
    intro x hx
    simp only [List.foldr_cons]
    rcases List.mem_cons.mp hx with rfl | hx'
    · exact le_trans (min_le_right _ _) (ih x (List.mem_cons_self _ _))
    · rcases List.mem_cons.mp hx' with rfl | hx''
      · exact min_le_left _ _
      · exact le_trans (min_le_right _ _) (ih x (List.mem_cons_of_mem _ hx''))

theorem mem_abortLens {α ε : Type} (ds : List (ZControl α ε))
    (Ls : List (List α)) (u : Nat) :
    u ∈ abortLens ds Ls ↔
      ∃ p ∈ List.zip ds Ls, isAbort p.1 = true ∧ p.2.length = u := by
  unfold abortLens
  simp [List.mem_filterMap, Option.ite_none_right_eq_some]

theorem minAbort_none_iff {α ε : Type} (ds : List (ZControl α ε))
    (Ls : List (List α)) : minAbort ds Ls = none ↔ abortLens ds Ls = [] := by
  unfold minAbort
  cases abortLens ds Ls <;> simp

theorem minAbort_spec {α ε : Type} (ds : List (ZControl α ε))
    (Ls : List (List α)) (t : Nat) (h : minAbort ds Ls = some t) :
    t ∈ abortLens ds Ls ∧ ∀ u ∈ abortLens ds Ls, t ≤ u := by
  unfold minAbort at h
  cases hA : abortLens ds Ls with
  | nil =>
    rw [hA] at h
    simp at h
  | cons a rest =>
    rw [hA] at h
    have ht : rest.foldr min a = t := by
      injection h
    constructor
    · rw [← ht]
      exact foldr_min_mem a rest
    · rw [← ht]
      exact foldr_min_le a rest

theorem noAbort_iff {α ε : Type} (ds : List (ZControl α ε)) (Ls : List (List α)) :
    abortLens ds Ls = [] ↔ ∀ p ∈ List.zip ds Ls, isAbort p.1 = false := by
  unfold abortLens
  rw [List.filterMap_eq_nil_iff]
  constructor
  · intro h p hp
    have := h p hp
    by_cases hab : isAbort p.1 = true
    · rw [if_pos hab] at this
      simp at this
    · exact Bool.eq_false_iff.mpr hab
  · intro h p hp
    rw [if_neg (by simp [h p hp])]

theorem any_unstopped_colsA {α ε : Type} :
    ∀ (ds : List (ZControl α ε)) (Ls : List (List α)), ds.length = Ls.length →
      ∀ s, ((colsA ds Ls s).any fun c => !c.stopped) =
        (Ls.any fun L => decide (s ≤ L.length)) := by
  intro ds
  induction ds with
  | nil =>
    intro Ls hlen s
    cases Ls with
    | nil => simp [colsA]
    | cons L Ls => simp at hlen
  | cons d ds ih =>
    intro Ls hlen s
    cases Ls with
    | nil => simp at hlen
    | cons L Ls =>
      have hlen' : ds.length = Ls.length := by simpa using hlen
      rw [colsA, List.zipWith_cons_cons, List.any_cons, List.any_cons,
        show List.zipWith (fun d L => colA d L s) ds Ls = colsA ds Ls s from rfl,
        ih Ls hlen' s]
      congr 1
      simp only [colA]
      rcases Nat.lt_or_ge L.length s with h | h
      · simp [h, Nat.not_le.mpr h]
      · simp [Nat.not_lt.mpr h, h]

/-! ## Rows yielded from a given step on -/

theorem rowsFromC_eq_nil {α ε : Type} (ds : List (ZControl α ε))
    (Ls : List (List α)) (a b : Nat) (h : b ≤ a) : rowsFromC ds Ls a b = [] := by
  simp [rowsFromC, Nat.sub_eq_zero_of_le h]

theorem rowsFromC_cons {α ε : Type} (ds : List (ZControl α ε))
    (Ls : List (List α)) (a b : Nat) (h : a < b) :
    rowsFromC ds Ls a b = rowC ds Ls a :: rowsFromC ds Ls (a + 1) b := by
  unfold rowsFromC
  rw [show b - a = (b - (a + 1)) + 1 by omega, List.range'_succ]
  simp

theorem rowsFromC_zero {α ε : Type} (ds : List (ZControl α ε))
    (Ls : List (List α)) (b : Nat) : rowsFromC ds Ls 0 b = rowsC ds Ls b := by
  simp [rowsFromC, rowsC, List.range_eq_range']

theorem zloop_colsA_done {α ε : Type} (ds : List (ZControl α ε))
    (Ls : List (List α)) (s : Nat) (hlen : ds.length = Ls.length)
    (hbig : maxLen Ls < s) : zloop (colsA ds Ls s) = .ok [] := by
  have hany : ((colsA ds Ls s).any fun c => !c.stopped) = false := by
    rw [any_unstopped_colsA ds Ls hlen s]
    rw [List.any_eq_false]
    intro L hL
    have := length_le_maxLen Ls L hL
    simp
    omega
  rw [zloop]
  simp [hany]

theorem zloop_eq_of_fullStop {α ε : Type} (cols cs : List (Column α ε))
    (hany : (cols.any fun c => !c.stopped) = true)
    (hstep : zstep cols = .fullStop cs) :
    zloop cols = .ok [cols.map Column.prev] := by
  rw [zloop]
  rw [dif_pos hany]
  split <;> simp_all

theorem zloop_eq_of_raised {α ε : Type} (cols : List (Column α ε)) (e : ε)
    (hany : (cols.any fun c => !c.stopped) = true)
    (hstep : zstep cols = .raised e) :
    zloop cols = .raised [cols.map Column.prev] e := by
  rw [zloop]
  rw [dif_pos hany]
  split <;> simp_all

theorem zloop_eq_of_next {α ε : Type} (cols cols' : List (Column α ε))
    (hany : (cols.any fun c => !c.stopped) = true)
    (hstep : zstep cols = .next cols') :
    zloop cols = (zloop cols').consRow (cols.map Column.prev) := by
  rw [zloop]
  rw [dif_pos hany]
  split <;> simp_all

theorem closedFrom_none {α ε : Type} (ds : List (ZControl α ε))
    (Ls : List (List α)) (a : Nat) (h : minAbort ds Ls = none) :
    closedFrom ds Ls a = .ok (rowsFromC ds Ls a (maxLen Ls)) := by
  simp only [closedFrom, h]

theorem closedFrom_some_exc {α ε : Type} (ds : List (ZControl α ε))
    (Ls : List (List α)) (a t : Nat) (e : ε) (L0 : List α)
    (h : minAbort ds Ls = some t)
    (hf : (List.zip ds Ls).find? (fun p => isAbort p.1 && p.2.length == t) =
      some (ZControl.exc e, L0)) :
    closedFrom ds Ls a = .raised (rowsFromC ds Ls a t) e := by
  simp only [closedFrom, h, hf]

theorem closedFrom_some_notExc {α ε : Type} (ds : List (ZControl α ε))
    (Ls : List (List α)) (a t : Nat) (d0 : ZControl α ε) (L0 : List α)
    (h : minAbort ds Ls = some t)
    (hf : (List.zip ds Ls).find? (fun p => isAbort p.1 && p.2.length == t) =
      some (d0, L0))
    (hd : isExc d0 = false) :
    closedFrom ds Ls a = .ok (rowsFromC ds Ls a t) := by
  cases d0 with
  | exc e => simp [isExc] at hd
  | stopIt => simp only [closedFrom, h, hf]
  | previous => simp only [closedFrom, h, hf]
  | val v => simp only [closedFrom, h, hf]

theorem closedFrom_consRow {α ε : Type} (ds : List (ZControl α ε))
    (Ls : List (List α)) (a : Nat)
    (hnone : minAbort ds Ls = none → a < maxLen Ls)
    (hsome : ∀ t, minAbort ds Ls = some t → a < t) :
    (closedFrom ds Ls (a + 1)).consRow (rowC ds Ls a) = closedFrom ds Ls a := by
  cases hM : minAbort ds Ls with
  | none =>
    simp only [closedFrom, hM]
    rw [rowsFromC_cons ds Ls a (maxLen Ls) (hnone hM)]
    rfl
  | some t =>
    cases hF : (List.zip ds Ls).find?
        (fun p => isAbort p.1 && p.2.length == t) with
    | none =>
      simp only [closedFrom, hM, hF]
      rw [rowsFromC_cons ds Ls a t (hsome t hM)]
      rfl
    | some pr =>
      obtain ⟨d0, L0⟩ := pr
      cases d0 with
      | stopIt =>
        simp only [closedFrom, hM, hF]
        rw [rowsFromC_cons ds Ls a t (hsome t hM)]
        rfl
      | previous =>
        simp only [closedFrom, hM, hF]
        rw [rowsFromC_cons ds Ls a t (hsome t hM)]
        rfl
      | exc e =>
        simp only [closedFrom, hM, hF]
        rw [rowsFromC_cons ds Ls a t (hsome t hM)]
        rfl
      | val v =>
        simp only [closedFrom, hM, hF]
        rw [rowsFromC_cons ds Ls a t (hsome t hM)]
        rfl

theorem zloop_colsA_of_big {α ε : Type} (s : Nat) (ds : List (ZControl α ε))
    (Ls : List (List α)) (hlen : ds.length = Ls.length)
    (hmin : ∀ p ∈ List.zip ds Ls, isAbort p.1 = true → s ≤ p.2.length)
    (hbig : maxLen Ls < s) :
    zloop (colsA ds Ls s) = closedFrom ds Ls (s - 1) := by
  rw [zloop_colsA_done ds Ls s hlen hbig]
  cases hM : minAbort ds Ls with
  | none =>
    rw [closedFrom_none ds Ls _ hM, rowsFromC_eq_nil ds Ls _ _ (by omega)]
  | some t =>
    exfalso
    obtain ⟨hmem, _⟩ := minAbort_spec ds Ls t hM
    obtain ⟨p, hp, hab, hplen⟩ := (mem_abortLens ds Ls t).mp hmem
    have h1 : s ≤ t := by
      have := hmin p hp hab
      omega
    have h2 : t ≤ maxLen Ls := by
      have hmem2 : p.2 ∈ Ls := (List.of_mem_zip hp).2
      have := length_le_maxLen Ls p.2 hmem2
      omega
    omega

theorem zloop_colsA {α ε : Type} :
    ∀ (k s : Nat) (ds : List (ZControl α ε)) (Ls : List (List α)),
      ds.length = Ls.length → 1 ≤ s →
      (∀ p ∈ List.zip ds Ls, isAbort p.1 = true → s ≤ p.2.length) →
      maxLen Ls + 1 - s ≤ k →
      zloop (colsA ds Ls s) = closedFrom ds Ls (s - 1) := by
  intro k
  induction k with
  | zero =>
    intro s ds Ls hlen hs hmin hk
    exact zloop_colsA_of_big s ds Ls hlen hmin (by omega)
  | succ k ih =>
    intro s ds Ls hlen hs hmin hk
    rcases Nat.lt_or_ge (maxLen Ls) s with hbig | hsle
    · exact zloop_colsA_of_big s ds Ls hlen hmin hbig
    · obtain ⟨s', rfl⟩ : ∃ s', s = s' + 1 := ⟨s - 1, by omega⟩
      simp only [Nat.add_sub_cancel]
      have hany : ((colsA ds Ls (s' + 1)).any fun c => !c.stopped) = true := by
        rw [any_unstopped_colsA ds Ls hlen (s' + 1)]
        rw [List.any_eq_true]
        obtain ⟨L, hL, hsL⟩ := exists_of_le_maxLen Ls (s' + 1) hs hsle
        exact ⟨L, hL, by simpa using hsL⟩
      by_cases habort :
          ∃ p ∈ List.zip ds Ls, isAbort p.1 = true ∧ p.2.length = s' + 1
      · have hfindsome : ((List.zip ds Ls).find?
            (fun p => isAbort p.1 && p.2.length == s' + 1)).isSome := by
          rw [List.find?_isSome]
          obtain ⟨p, hp, hab, hl⟩ := habort
          exact ⟨p, hp, by simp [hab, hl]⟩
        obtain ⟨pr, hfind⟩ := Option.isSome_iff_exists.mp hfindsome
        have hminS : minAbort ds Ls = some (s' + 1) := by
          have hsmem : (s' + 1) ∈ abortLens ds Ls := by
            rw [mem_abortLens]
            obtain ⟨p, hp, hab, hl⟩ := habort
            exact ⟨p, hp, hab, hl⟩
          cases hM : minAbort ds Ls with
          | none =>
            rw [minAbort_none_iff] at hM
            rw [hM] at hsmem
            simp at hsmem
          | some m =>
            obtain ⟨hmmem, hmle⟩ := minAbort_spec ds Ls m hM
            have h1 : m ≤ s' + 1 := hmle _ hsmem
            have h2 : s' + 1 ≤ m := by
              obtain ⟨p, hp, hab, hl⟩ := (mem_abortLens ds Ls m).mp hmmem
              have := hmin p hp hab
              omega
            rw [show m = s' + 1 by omega]
        rcases zstep_colsA_abort ds Ls (s' + 1) pr hmin hfind with
          ⟨hpr, cs, hstep⟩ | ⟨e, hpr, hstep⟩
        · rw [zloop_eq_of_fullStop _ cs hany hstep, map_prev_colsA]
          obtain ⟨d0, L0⟩ := pr
          simp only at hpr
          subst hpr
          rw [closedFrom_some_notExc ds Ls s' (s' + 1) _ L0 hminS hfind
            (by simp [isExc])]
          rw [rowsFromC_cons ds Ls s' (s' + 1) (by omega),
            rowsFromC_eq_nil ds Ls (s' + 1) (s' + 1) (by omega)]
        · rw [zloop_eq_of_raised _ e hany hstep, map_prev_colsA]
          obtain ⟨d0, L0⟩ := pr
          simp only at hpr
          subst hpr
          rw [closedFrom_some_exc ds Ls s' (s' + 1) e L0 hminS hfind]
          rw [rowsFromC_cons ds Ls s' (s' + 1) (by omega),
            rowsFromC_eq_nil ds Ls (s' + 1) (s' + 1) (by omega)]
      · have hmin' : ∀ p ∈ List.zip ds Ls, isAbort p.1 = true →
            s' + 2 ≤ p.2.length := by
          intro p hp hab
          have h1 := hmin p hp hab
          have h2 : p.2.length ≠ s' + 1 := fun heq => habort ⟨p, hp, hab, heq⟩
          omega
        have hstep := zstep_colsA ds Ls (s' + 1) (fun p hp hab => by
          have := hmin' p hp hab
          omega)
        rw [zloop_eq_of_next _ _ hany hstep, map_prev_colsA]
        rw [ih (s' + 2) ds Ls hlen (by omega) hmin' (by omega)]
        rw [show s' + 2 - 1 = s' + 1 from rfl]
        refine closedFrom_consRow ds Ls s' (fun _ => by omega) ?_
        intro t hM
        obtain ⟨hmem, _⟩ := minAbort_spec ds Ls t hM
        obtain ⟨p, hp, hab, hl⟩ := (mem_abortLens ds Ls t).mp hmem
        have := hmin' p hp hab
        omega

theorem zrun_closed {α ε : Type} (ds : List (ZControl α ε)) (Ls : List (List α))
    (hlen : ds.length = Ls.length) :
    zrun (initCols ds Ls) = closedFrom ds Ls 0 := by
  rw [initCols_eq_colsA]
  by_cases h0 : ∃ p ∈ List.zip ds Ls, isAbort p.1 = true ∧ p.2.length = 0
  · have hmin0 : ∀ p ∈ List.zip ds Ls, isAbort p.1 = true → 0 ≤ p.2.length :=
      fun p _ _ => Nat.zero_le _
    have hfindsome : ((List.zip ds Ls).find?
        (fun p => isAbort p.1 && p.2.length == 0)).isSome := by
      rw [List.find?_isSome]
      obtain ⟨p, hp, hab, hl⟩ := h0
      exact ⟨p, hp, by simp [hab, hl]⟩
    obtain ⟨pr, hfind⟩ := Option.isSome_iff_exists.mp hfindsome
    have hminS : minAbort ds Ls = some 0 := by
      have hsmem : 0 ∈ abortLens ds Ls := by
        rw [mem_abortLens]
        obtain ⟨p, hp, hab, hl⟩ := h0
        exact ⟨p, hp, hab, hl⟩
      cases hM : minAbort ds Ls with
      | none =>
        rw [minAbort_none_iff] at hM
        rw [hM] at hsmem
        simp at hsmem
      | some m =>
        obtain ⟨hmmem, hmle⟩ := minAbort_spec ds Ls m hM
        have h1 : m ≤ 0 := hmle _ hsmem
        rw [show m = 0 by omega]
    rcases zstep_colsA_abort ds Ls 0 pr hmin0 hfind with
      ⟨hpr, cs, hstep⟩ | ⟨e, hpr, hstep⟩
    · unfold zrun
      rw [hstep]
      obtain ⟨d0, L0⟩ := pr
      simp only at hpr
      subst hpr
      rw [closedFrom_some_notExc ds Ls 0 0 _ L0 hminS hfind (by simp [isExc])]
      rw [rowsFromC_eq_nil ds Ls 0 0 (le_refl 0)]
    · unfold zrun
      rw [hstep]
      obtain ⟨d0, L0⟩ := pr
      simp only at hpr
      subst hpr
      rw [closedFrom_some_exc ds Ls 0 0 e L0 hminS hfind]
      rw [rowsFromC_eq_nil ds Ls 0 0 (le_refl 0)]
  · have hmin1 : ∀ p ∈ List.zip ds Ls, isAbort p.1 = true → 1 ≤ p.2.length := by
      intro p hp hab
      have hno : p.2.length ≠ 0 := fun heq => h0 ⟨p, hp, hab, heq⟩
      omega
    have hstep := zstep_colsA ds Ls 0 (fun p hp hab => by
      have := hmin1 p hp hab
      omega)
    unfold zrun
    rw [hstep]
    show zloop (colsA ds Ls 1) = closedFrom ds Ls 0
    rw [zloop_colsA (maxLen Ls + 1) 1 ds Ls hlen (le_refl 1) hmin1 (by omega)]

theorem closedRun_eq_closedFrom {α ε : Type} (ds : List (ZControl α ε))
    (Ls : List (List α)) : closedRun ds Ls = closedFrom ds Ls 0 := by
  cases hM : minAbort ds Ls with
  | none => simp only [closedRun, closedFrom, hM, rowsFromC_zero]
  | some t =>
    cases hF : (List.zip ds Ls).find?
        (fun p => isAbort p.1 && p.2.length == t) with
    | none => simp only [closedRun, closedFrom, hM, hF, rowsFromC_zero]
    | some pr =>
      obtain ⟨d0, L0⟩ := pr
      cases d0 with
      | stopIt => simp only [closedRun, closedFrom, hM, hF, rowsFromC_zero]
      | previous => simp only [closedRun, closedFrom, hM, hF, rowsFromC_zero]
      | exc e => simp only [closedRun, closedFrom, hM, hF, rowsFromC_zero]
      | val v => simp only [closedRun, closedFrom, hM, hF, rowsFromC_zero]

/-- Master characterization: a validated run equals its closed form. -/
theorem zrun_eq_closedRun {α ε : Type} (ds : List (ZControl α ε))
    (Ls : List (List α)) (hlen : ds.length = Ls.length) :
    zrun (initCols ds Ls) = closedRun ds Ls := by
  rw [zrun_closed ds Ls hlen, closedRun_eq_closedFrom]

theorem ziplus_seqArg_eq {α ε : Type} (its : List (ZArg α))
    (ds : List (ZControl α ε)) (hlen : ds.length = its.length) :
    ziplus its (.seqArg ds) = .run (closedRun ds (its.map ZArg.toItems)) := by
  show (if ds.length ≠ its.length then ZiplusOut.valueError "Bad defaults length"
    else ZiplusOut.run (zrun (initCols ds (its.map ZArg.toItems)))) =
      ZiplusOut.run (closedRun ds (its.map ZArg.toItems))
  rw [if_neg (by simp [hlen])]
  rw [zrun_eq_closedRun ds (its.map ZArg.toItems) (by simp [hlen])]

theorem ziplus_noneArg_eq {α ε : Type} (its : List (ZArg α)) :
    ziplus its (DefaultsArg.noneArg (α := α) (ε := ε)) =
      .run (closedRun (List.replicate its.length ZControl.stopIt)
        (its.map ZArg.toItems)) := by
  show ZiplusOut.run (zrun (initCols (List.replicate its.length ZControl.stopIt)
      (its.map ZArg.toItems))) = _
  rw [zrun_eq_closedRun _ (its.map ZArg.toItems) (by simp)]

/-! ## Indexing helpers -/

theorem lt_of_getElem?_eq_some {β : Type} (l : List β) (i : Nat) (x : β)
    (h : l[i]? = some x) : i < l.length := by
  by_contra hc
  rw [List.getElem?_eq_none (by omega)] at h
  exact Option.noConfusion h

theorem length_rowsC {α ε : Type} (ds : List (ZControl α ε))
    (Ls : List (List α)) (k : Nat) : (rowsC ds Ls k).length = k := by
  simp [rowsC]

theorem rowsC_getElem {α ε : Type} (ds : List (ZControl α ε))
    (Ls : List (List α)) (k j : Nat) (row : List (Cell α))
    (h : (rowsC ds Ls k)[j]? = some row) : j < k ∧ row = rowC ds Ls j := by
  have hj : j < k := by
    have := lt_of_getElem?_eq_some _ _ _ h
    simpa [length_rowsC] using this
  refine ⟨hj, ?_⟩
  rw [rowsC, List.getElem?_map, List.getElem?_range hj] at h
  simpa using h.symm

theorem rowC_getElem {α ε : Type} (ds : List (ZControl α ε))
    (Ls : List (List α)) (j i : Nat) (d : ZControl α ε) (L : List α)
    (hd : ds[i]? = some d) (hL : Ls[i]? = some L) :
    (rowC ds Ls j)[i]? = some (cellC d L j) := by
  rw [rowC, List.getElem?_zipWith, hd, hL]

/-- `closedFrom` at an abort step whose `find?` scan is empty (unreachable in
a real run, but a total function must cover it). -/
theorem closedFrom_some_findNone {α ε : Type} (ds : List (ZControl α ε))
    (Ls : List (List α)) (a t : Nat) (h : minAbort ds Ls = some t)
    (hf : (List.zip ds Ls).find? (fun p => isAbort p.1 && p.2.length == t) =
      none) :
    closedFrom ds Ls a = .ok (rowsFromC ds Ls a t) := by
  simp only [closedFrom, h, hf]

/-- The rows of a run, read off the closed form: always an initial segment
`rowsC ds Ls k` of the step-indexed rows. -/
theorem closedRun_rows_shape {α ε : Type} (ds : List (ZControl α ε))
    (Ls : List (List α)) : ∃ k, (closedRun ds Ls).rows = rowsC ds Ls k := by
  rw [closedRun_eq_closedFrom]
  cases hM : minAbort ds Ls with
  | none =>
    rw [closedFrom_none ds Ls 0 hM]
    exact ⟨maxLen Ls, by simp [RunOut.rows, rowsFromC_zero]⟩
  | some t =>
    cases hF : (List.zip ds Ls).find?
        (fun p => isAbort p.1 && p.2.length == t) with
    | none =>
      rw [closedFrom_some_findNone ds Ls 0 t hM hF]
      exact ⟨t, by simp [RunOut.rows, rowsFromC_zero]⟩
    | some pr =>
      obtain ⟨d0, L0⟩ := pr
      cases hd0 : d0 with
      | exc e =>
        rw [closedFrom_some_exc ds Ls 0 t e L0 hM (by rw [hF, hd0])]
        exact ⟨t, by simp [RunOut.rows, rowsFromC_zero]⟩
      | stopIt =>
        rw [closedFrom_some_notExc ds Ls 0 t d0 L0 hM hF (by simp [hd0, isExc])]
        exact ⟨t, by simp [RunOut.rows, rowsFromC_zero]⟩
      | previous =>
        rw [closedFrom_some_notExc ds Ls 0 t d0 L0 hM hF (by simp [hd0, isExc])]
        exact ⟨t, by simp [RunOut.rows, rowsFromC_zero]⟩
      | val v =>
        rw [closedFrom_some_notExc ds Ls 0 t d0 L0 hM hF (by simp [hd0, isExc])]
        exact ⟨t, by simp [RunOut.rows, rowsFromC_zero]⟩

theorem zip_replicate_left {β γ : Type} (c : β) :
    ∀ (Ls : List γ), List.zip (List.replicate Ls.length c) Ls =
      Ls.map (fun L => (c, L))
  | [] => rfl
  | L :: Ls => by
    simp only [List.length_cons, List.replicate_succ, List.zip_cons_cons,
      List.map_cons]
    rw [zip_replicate_left c Ls]

theorem zipWith_replicate_left {β γ δ : Type} (f : β → γ → δ) (c : β) :
    ∀ (Ls : List γ), List.zipWith f (List.replicate Ls.length c) Ls =
      Ls.map (f c)
  | [] => rfl
  | L :: Ls => by
    simp only [List.length_cons, List.replicate_succ, List.zipWith_cons_cons,
      List.map_cons]
    rw [zipWith_replicate_left f c Ls]

theorem find?_eq_of_first {β : Type} :
    ∀ (l : List β) (p : β → Bool) (i : Nat) (hi : i < l.length),
      p (l.get ⟨i, hi⟩) = true →
      (∀ j, (hj : j < i) → p (l.get ⟨j, by omega⟩) = false) →
      l.find? p = some (l.get ⟨i, hi⟩) := by
  intro l
  induction l with
  | nil =>
    intro p i hi
    simp at hi
  | cons a l ih =>
    intro p i hi hp hprev
    cases i with
    | zero =>
      have hp0 : p a = true := hp
      rw [List.find?_cons_of_pos _ hp0]
      rfl
    | succ i' =>
      have h0 : p a = false := hprev 0 (by omega)
      rw [List.find?_cons_of_neg _ (by simp [h0])]
      exact ih p i' (by simpa using hi) hp
        (fun j hj => hprev (j + 1) (by omega))

/-- C1 counterexample: with sequences `[0..9], reversed([0..9]), "abcdef"` and
policies `[Previous, Stop, Previous]`, the combinator does **not** produce the
six rows `(0,9,a) .. (5,4,f)` claimed: the `Stop` policy sits on the
length-10 second column, so iteration does not end at the third column's
exhaustion. -/
theorem C1_cex_not_six_rows :
    ziplus [ZArg.seq exSeq1, ZArg.seq exSeq2, ZArg.seq exSeq3]
      (DefaultsArg.seqArg (ε := String)
        [ZControl.previous, ZControl.stopIt, ZControl.previous]) ≠
      ZiplusOut.run (RunOut.ok
        [[Cell.elem (Sum.inl 0), Cell.elem (Sum.inl 9), Cell.elem (Sum.inr 'a')],
         [Cell.elem (Sum.inl 1), Cell.elem (Sum.inl 8), Cell.elem (Sum.inr 'b')],
         [Cell.elem (Sum.inl 2), Cell.elem (Sum.inl 7), Cell.elem (Sum.inr 'c')],
         [Cell.elem (Sum.inl 3), Cell.elem (Sum.inl 6), Cell.elem (Sum.inr 'd')],
         [Cell.elem (Sum.inl 4), Cell.elem (Sum.inl 5), Cell.elem (Sum.inr 'e')],
         [Cell.elem (Sum.inl 5), Cell.elem (Sum.inl 4), Cell.elem (Sum.inr 'f')]]) := by
  rw [ziplus_seqArg_eq _ _ rfl]
  decide

/-- C1 (amended): with sequences `[0..9], reversed([0..9]), "abcdef"` and
policies `[Previous, Stop, Previous]`, the combinator produces exactly 10
rows `(0,9,a),(1,8,b),(2,7,c),(3,6,d),(4,5,e),(5,4,f),(6,3,f),(7,2,f),
(8,1,f),(9,0,f)`, terminating cleanly at the `Stop` column's (the length-10
second column's) exhaustion; the exhausted third column repeats `f` by its
`Previous` policy.  This matches the first docstring example of the source. -/
theorem C1_mixed_policies_ten_rows :
    ziplus [ZArg.seq exSeq1, ZArg.seq exSeq2, ZArg.seq exSeq3]
      (DefaultsArg.seqArg (ε := String)
        [ZControl.previous, ZControl.stopIt, ZControl.previous]) =
      ZiplusOut.run (RunOut.ok
        [[Cell.elem (Sum.inl 0), Cell.elem (Sum.inl 9), Cell.elem (Sum.inr 'a')],
         [Cell.elem (Sum.inl 1), Cell.elem (Sum.inl 8), Cell.elem (Sum.inr 'b')],
         [Cell.elem (Sum.inl 2), Cell.elem (Sum.inl 7), Cell.elem (Sum.inr 'c')],
         [Cell.elem (Sum.inl 3), Cell.elem (Sum.inl 6), Cell.elem (Sum.inr 'd')],
         [Cell.elem (Sum.inl 4), Cell.elem (Sum.inl 5), Cell.elem (Sum.inr 'e')],
         [Cell.elem (Sum.inl 5), Cell.elem (Sum.inl 4), Cell.elem (Sum.inr 'f')],
         [Cell.elem (Sum.inl 6), Cell.elem (Sum.inl 3), Cell.elem (Sum.inr 'f')],
         [Cell.elem (Sum.inl 7), Cell.elem (Sum.inl 2), Cell.elem (Sum.inr 'f')],
         [Cell.elem (Sum.inl 8), Cell.elem (Sum.inl 1), Cell.elem (Sum.inr 'f')],
         [Cell.elem (Sum.inl 9), Cell.elem (Sum.inl 0), Cell.elem (Sum.inr 'f')]]) := by
  rw [ziplus_seqArg_eq _ _ rfl]
  decide

/-- C2: a `defaults` argument that is a sequence of the wrong length, or not
a sequence at all, makes the invocation fail with `ValueError` before any row
is produced, and a well-formed (or omitted) `defaults` never produces that
error: every such invocation is a run. -/
theorem C2_config_error_before_any_row :
    ∀ (α ε : Type) (its : List (ZArg α)) (dfs : List (ZControl α ε)),
      (dfs.length ≠ its.length →
        ziplus its (.seqArg dfs) = .valueError "Bad defaults length") ∧
      (ziplus its (DefaultsArg.nonSeqArg (α := α) (ε := ε)) =
        .valueError "defaults expects a Sequence") ∧
      (dfs.length = its.length → ∃ r, ziplus its (.seqArg dfs) = .run r) ∧
      (∃ r, ziplus its (DefaultsArg.noneArg (α := α) (ε := ε)) = .run r) := by
  intro α ε its dfs
  refine ⟨?_, ?_, ?_, ?_⟩
  · intro h
    show (if dfs.length ≠ its.length then ZiplusOut.valueError "Bad defaults length"
      else ZiplusOut.run (zrun (initCols dfs (its.map ZArg.toItems)))) = _
    rw [if_pos h]
  · rfl
  · intro h
    refine ⟨zrun (initCols dfs (its.map ZArg.toItems)), ?_⟩
    show (if dfs.length ≠ its.length then ZiplusOut.valueError "Bad defaults length"
      else ZiplusOut.run (zrun (initCols dfs (its.map ZArg.toItems)))) = _
    rw [if_neg (by simp [h])]
  · exact ⟨_, rfl⟩

/-- C2 witness at a concrete input: 0 policies for 1 sequence. -/
theorem C2_config_error_witness :
    ziplus [ZArg.seq (α := Nat) [1]]
      (DefaultsArg.seqArg ([] : List (ZControl Nat String))) =
      .valueError "Bad defaults length" :=
  (C2_config_error_before_any_row Nat String [ZArg.seq [1]] []).1 (by decide)

/-! ## C3: all-Stop policies refine the standard truncating zip -/

theorem abortLens_replicate {α ε : Type} (c : ZControl α ε)
    (Ls : List (List α)) :
    abortLens (List.replicate Ls.length c) Ls =
      if isAbort c = true then Ls.map List.length else [] := by
  induction Ls with
  | nil => cases hc : isAbort c <;> simp [abortLens, hc]
  | cons L Ls ih =>
    show abortLens (c :: List.replicate Ls.length c) (L :: Ls) = _
    unfold abortLens at ih ⊢
    rw [List.zip_cons_cons, List.filterMap_cons]
    cases hc : isAbort c with
    | false =>
      simp only [hc] at ih ⊢
      simp [ih]
    | true =>
      simp only [hc] at ih ⊢
      simp [ih]

theorem minAbort_replicate_stopIt {α ε : Type} (L : List α)
    (Ls : List (List α)) :
    minAbort (List.replicate (L :: Ls).length (ZControl.stopIt (α := α) (ε := ε)))
      (L :: Ls) = some (minLenSpec (L :: Ls)) := by
  unfold minAbort
  rw [abortLens_replicate]
  simp only [isAbort, if_true, List.map_cons]
  rfl

theorem minLenSpec_le {α : Type} (Ls : List (List α)) (L : List α)
    (h : L ∈ Ls) : minLenSpec Ls ≤ L.length := by
  cases Ls with
  | nil => simp at h
  | cons X rest =>
    rcases List.mem_cons.mp h with rfl | h'
    · exact foldr_min_le _ _ _ (List.mem_cons_self _ _)
    · exact foldr_min_le _ _ _
        (List.mem_cons_of_mem _ (List.mem_map.mpr ⟨L, h', rfl⟩))

theorem rowsC_replicate_stopIt {α ε : Type} (Ls : List (List α)) :
    rowsC (List.replicate Ls.length (ZControl.stopIt (α := α) (ε := ε))) Ls
      (minLenSpec Ls) = truncZipSpec Ls := by
  unfold rowsC truncZipSpec
  apply List.map_congr_left
  intro j hj
  have hjlt : j < minLenSpec Ls := by simpa using hj
  rw [rowC, zipWith_replicate_left]
  apply List.map_congr_left
  intro L hL
  have hjL : j < L.length := by
    have := minLenSpec_le Ls L hL
    omega
  rw [cellC, List.getElem?_eq_getElem hjL]
  rfl

theorem closedRun_all_stop {α ε : Type} (Ls : List (List α)) :
    closedRun (List.replicate Ls.length (ZControl.stopIt (α := α) (ε := ε))) Ls =
      RunOut.ok (truncZipSpec Ls) := by
  cases Ls with
  | nil => rfl
  | cons L Ls =>
    have hM := minAbort_replicate_stopIt (α := α) (ε := ε) L Ls
    rw [closedRun_eq_closedFrom]
    have hfindsome : ((List.zip
        (List.replicate (L :: Ls).length (ZControl.stopIt (α := α) (ε := ε)))
        (L :: Ls)).find?
        (fun p => isAbort p.1 && p.2.length == minLenSpec (L :: Ls))).isSome := by
      rw [List.find?_isSome]
      have hmem : minLenSpec (L :: Ls) ∈ (L :: Ls).map List.length := by
        have := foldr_min_mem L.length (Ls.map List.length)
        simpa [minLenSpec] using this
      obtain ⟨X, hX, hXlen⟩ := List.mem_map.mp hmem
      refine ⟨(ZControl.stopIt, X), ?_, by simp [isAbort, hXlen]⟩
      rw [zip_replicate_left]
      exact List.mem_map.mpr ⟨X, hX, rfl⟩
    obtain ⟨pr, hfind⟩ := Option.isSome_iff_exists.mp hfindsome
    have hpr1 : pr.1 = ZControl.stopIt := by
      have hmem := List.mem_of_find?_eq_some hfind
      rw [zip_replicate_left] at hmem
      obtain ⟨X, hX, hXeq⟩ := List.mem_map.mp hmem
      rw [← hXeq]
    rw [closedFrom_some_notExc _ _ 0 _ pr.1 pr.2 hM hfind
      (by rw [hpr1]; rfl)]
    rw [rowsFromC_zero, rowsC_replicate_stopIt]

/-- C3: with policies omitted, or with an explicit all-`Stop` policy list,
the combinator's output is exactly the spec's truncating zip:
`minLenSpec Ls` rows whose row `j` is the tuple of `j`-th elements. -/
theorem C3_all_stop_is_truncating_zip :
    ∀ (α ε : Type) (Ls : List (List α)),
      ziplus (Ls.map ZArg.seq) (DefaultsArg.noneArg (α := α) (ε := ε)) =
        .run (.ok (truncZipSpec Ls)) ∧
      ziplus (Ls.map ZArg.seq)
        (.seqArg (List.replicate Ls.length (ZControl.stopIt (α := α) (ε := ε)))) =
        .run (.ok (truncZipSpec Ls)) ∧
      (truncZipSpec Ls).length = minLenSpec Ls := by
  intro α ε Ls
  have hitems : (Ls.map ZArg.seq).map ZArg.toItems = Ls := by
    rw [List.map_map]
    have hcomp : (ZArg.toItems ∘ ZArg.seq) = fun xs : List α => xs :=
      funext (fun xs => rfl)
    rw [hcomp]
    simp
  refine ⟨?_, ?_, ?_⟩
  · rw [ziplus_noneArg_eq]
    rw [show (Ls.map ZArg.seq).length = Ls.length by simp]
    rw [hitems, closedRun_all_stop]
  · rw [ziplus_seqArg_eq _ _ (by simp)]
    rw [hitems, closedRun_all_stop]
  · simp [truncZipSpec]

/-! ## C4: all-Previous policies -/

theorem closedRun_all_previous {α ε : Type} (Ls : List (List α)) :
    closedRun (List.replicate Ls.length (ZControl.previous (α := α) (ε := ε))) Ls =
      RunOut.ok
        (rowsC (List.replicate Ls.length (ZControl.previous (α := α) (ε := ε)))
          Ls (maxLen Ls)) := by
  rw [closedRun_eq_closedFrom]
  have hM : minAbort (List.replicate Ls.length
      (ZControl.previous (α := α) (ε := ε))) Ls = none := by
    rw [minAbort_none_iff, abortLens_replicate]
    simp [isAbort]
  rw [closedFrom_none _ _ 0 hM, rowsFromC_zero]

/-- C4: with every policy `Previous` and every sequence non-empty, the
combinator yields exactly `maxLen Ls` rows, and in every row at or past a
column's exhaustion that column holds its last real value; in particular the
docstring example yields 10 rows ending `(6,3,f),(7,2,f),(8,1,f),(9,0,f)`. -/
theorem C4_all_previous_max_rows :
    (∀ (α ε : Type) (Ls : List (List α)), (∀ L ∈ Ls, L ≠ []) →
      ∃ rows, ziplus (Ls.map ZArg.seq)
          (DefaultsArg.seqArg
            (List.replicate Ls.length (ZControl.previous (α := α) (ε := ε)))) =
          .run (.ok rows) ∧
        rows.length = maxLen Ls ∧
        (∀ (i j : Nat) (L : List α) (row : List (Cell α)),
          Ls[i]? = some L → L.length ≤ j → rows[j]? = some row →
          ∃ a, L.getLast? = some a ∧ row[i]? = some (Cell.elem a))) ∧
    (∃ rows, ziplus [ZArg.seq exSeq1, ZArg.seq exSeq2, ZArg.seq exSeq3]
        (DefaultsArg.seqArg (ε := String)
          [ZControl.previous, ZControl.previous, ZControl.previous]) =
        .run (.ok rows) ∧
      rows.length = 10 ∧
      rows.drop 6 =
        [[Cell.elem (Sum.inl 6), Cell.elem (Sum.inl 3), Cell.elem (Sum.inr 'f')],
         [Cell.elem (Sum.inl 7), Cell.elem (Sum.inl 2), Cell.elem (Sum.inr 'f')],
         [Cell.elem (Sum.inl 8), Cell.elem (Sum.inl 1), Cell.elem (Sum.inr 'f')],
         [Cell.elem (Sum.inl 9), Cell.elem (Sum.inl 0), Cell.elem (Sum.inr 'f')]]) := by
  constructor
  · intro α ε Ls hne
    have hitems : (Ls.map ZArg.seq).map ZArg.toItems = Ls := by
      rw [List.map_map]
      have hcomp : (ZArg.toItems ∘ ZArg.seq) = fun xs : List α => xs :=
        funext (fun xs => rfl)
      rw [hcomp]
      simp
    refine ⟨rowsC (List.replicate Ls.length
        (ZControl.previous (α := α) (ε := ε))) Ls (maxLen Ls),
      ?_, length_rowsC _ _ _, ?_⟩
    · rw [ziplus_seqArg_eq _ _ (by simp)]
      simp only [hitems]
      rw [closedRun_all_previous]
    · intro i j L row hL hjL hrow
      obtain ⟨hjlt, rfl⟩ := rowsC_getElem _ _ _ _ _ hrow
      have hiL : i < Ls.length := lt_of_getElem?_eq_some _ _ _ hL
      have hd : (List.replicate Ls.length
          (ZControl.previous (α := α) (ε := ε)))[i]? = some ZControl.previous := by
        simp [List.getElem?_replicate, hiL]
      rw [rowC_getElem _ _ _ _ _ _ hd hL]
      have hLne : L ≠ [] := hne L (List.getElem?_mem hL)
      obtain ⟨a, ha⟩ := Option.isSome_iff_exists.mp
        (List.getLast?_isSome.mpr hLne)
      refine ⟨a, ha, ?_⟩
      rw [cellC, List.getElem?_eq_none hjL]
      simp [fillC, ha, cellOf]
  · refine ⟨[[Cell.elem (Sum.inl 0), Cell.elem (Sum.inl 9), Cell.elem (Sum.inr 'a')],
      [Cell.elem (Sum.inl 1), Cell.elem (Sum.inl 8), Cell.elem (Sum.inr 'b')],
      [Cell.elem (Sum.inl 2), Cell.elem (Sum.inl 7), Cell.elem (Sum.inr 'c')],
      [Cell.elem (Sum.inl 3), Cell.elem (Sum.inl 6), Cell.elem (Sum.inr 'd')],
      [Cell.elem (Sum.inl 4), Cell.elem (Sum.inl 5), Cell.elem (Sum.inr 'e')],
      [Cell.elem (Sum.inl 5), Cell.elem (Sum.inl 4), Cell.elem (Sum.inr 'f')],
      [Cell.elem (Sum.inl 6), Cell.elem (Sum.inl 3), Cell.elem (Sum.inr 'f')],
      [Cell.elem (Sum.inl 7), Cell.elem (Sum.inl 2), Cell.elem (Sum.inr 'f')],
      [Cell.elem (Sum.inl 8), Cell.elem (Sum.inl 1), Cell.elem (Sum.inr 'f')],
      [Cell.elem (Sum.inl 9), Cell.elem (Sum.inl 0), Cell.elem (Sum.inr 'f')]],
      ?_, ?_, ?_⟩
    · rw [ziplus_seqArg_eq _ _ rfl]
      decide
    · decide
    · decide

/-- C4 witness at a concrete input: sequences `[1]` and `[2, 3]`, both
policies `Previous`. -/
theorem C4_all_previous_witness :
    (∀ L ∈ [[1], [2, 3]], L ≠ ([] : List Nat)) ∧
    ∃ rows, ziplus ([[1], [2, 3]].map ZArg.seq)
        (DefaultsArg.seqArg
          (List.replicate ([[1], [2, 3]] : List (List Nat)).length
            (ZControl.previous (α := Nat) (ε := String)))) =
        .run (.ok rows) ∧
      rows.length = maxLen [[1], [2, 3]] ∧
      (∀ (i j : Nat) (L : List Nat) (row : List (Cell Nat)),
        ([[1], [2, 3]] : List (List Nat))[i]? = some L →
        L.length ≤ j → rows[j]? = some row →
        ∃ a, L.getLast? = some a ∧ row[i]? = some (Cell.elem a)) :=
  ⟨by decide, C4_all_previous_max_rows.1 Nat String [[1], [2, 3]] (by decide)⟩

/-! ## C5: Constant-fill columns -/

/-- C5: a column whose policy is a plain constant `v` contributes its own
sequence elements before exhaustion and exactly `v` in every row at or after
its exhaustion, whatever the other columns' policies and however the run
ends. -/
theorem C5_constant_fill :
    ∀ (α ε : Type) (ds : List (ZControl α ε)) (Ls : List (List α))
      (i j : Nat) (v : Cell α) (L : List α) (row : List (Cell α)),
      ds.length = Ls.length →
      ds[i]? = some (ZControl.val v) → Ls[i]? = some L →
      (ziplus (Ls.map ZArg.seq) (.seqArg ds)).rows[j]? = some row →
      (L.length ≤ j → row[i]? = some v) ∧
      (∀ hj : j < L.length, row[i]? = some (Cell.elem (L.get ⟨j, hj⟩))) := by
  intro α ε ds Ls i j v L row hlen hd hL hrow
  have hitems : (Ls.map ZArg.seq).map ZArg.toItems = Ls := by
    rw [List.map_map]
    have hcomp : (ZArg.toItems ∘ ZArg.seq) = fun xs : List α => xs :=
      funext (fun xs => rfl)
    rw [hcomp]
    simp
  rw [ziplus_seqArg_eq _ _ (by simp [hlen])] at hrow
  simp only [hitems] at hrow
  have hrow2 : (closedRun ds Ls).rows[j]? = some row := hrow
  obtain ⟨k, hk⟩ := closedRun_rows_shape ds Ls
  rw [hk] at hrow2
  obtain ⟨hjk, rfl⟩ := rowsC_getElem _ _ _ _ _ hrow2
  constructor
  · intro hjL
    rw [rowC_getElem _ _ _ _ _ _ hd hL]
    simp [cellC, List.getElem?_eq_none hjL, fillC]
  · intro hj
    rw [rowC_getElem _ _ _ _ _ _ hd hL]
    simp [cellC, List.getElem?_eq_getElem hj]

/-- C5 witness: sequences `[1,2,3]` (Stop) and `[5]` (Constant 9); row 2 has
the constant in column 1. -/
theorem C5_constant_fill_witness :
    ((ziplus (([[1, 2, 3], [5]] : List (List Nat)).map ZArg.seq)
        (DefaultsArg.seqArg
          [ZControl.stopIt, ZControl.val (Cell.elem 9)] : DefaultsArg Nat String)).rows[2]?
      = some [Cell.elem 3, Cell.elem 9]) ∧
    ([Cell.elem 3, Cell.elem 9] : List (Cell Nat))[1]? = some (Cell.elem 9) := by
  have hrows : ((ziplus (([[1, 2, 3], [5]] : List (List Nat)).map ZArg.seq)
      (DefaultsArg.seqArg
        [ZControl.stopIt, ZControl.val (Cell.elem 9)] : DefaultsArg Nat String)).rows[2]?
      = some [Cell.elem 3, Cell.elem 9]) := by
    rw [ziplus_seqArg_eq _ _ rfl]
    decide
  refine ⟨hrows, ?_⟩
  exact (C5_constant_fill Nat String [ZControl.stopIt, ZControl.val (Cell.elem 9)]
    [[1, 2, 3], [5]] 1 2 (Cell.elem 9) [5] [Cell.elem 3, Cell.elem 9]
    (by decide) (by decide) (by decide) hrows).1 (by decide)

/-! ## C6: Raise policies -/

theorem zip_getElem?_of {β γ : Type} (as : List β) (bs : List γ) (i : Nat)
    (a : β) (b : γ) (h1 : as[i]? = some a) (h2 : bs[i]? = some b) :
    (List.zip as bs)[i]? = some (a, b) := by
  show (List.zipWith Prod.mk as bs)[i]? = some (a, b)
  rw [List.getElem?_zipWith, h1, h2]

theorem zip_getElem?_inv {β γ : Type} (as : List β) (bs : List γ) (i : Nat)
    (p : β × γ) (h : (List.zip as bs)[i]? = some p) :
    as[i]? = some p.1 ∧ bs[i]? = some p.2 := by
  have h' : (List.zipWith Prod.mk as bs)[i]? = some p := h
  rw [List.getElem?_zipWith] at h'
  cases ha : as[i]? with
  | none => rw [ha] at h'; exact absurd h' (by simp)
  | some a =>
    cases hb : bs[i]? with
    | none => rw [ha, hb] at h'; exact absurd h' (by simp)
    | some b =>
      rw [ha, hb] at h'
      simp only [Option.some.injEq] at h'
      subst h'
      exact ⟨rfl, rfl⟩

/-- C6: if column `i` carries `Raise(e)` and no aborting column exhausts
strictly earlier (nor at the same step to its left), the run yields exactly
the `len(seq i)` rows built before that column's exhaustion — each row the
closed-form row, unaffected — and then fails with exactly `e` on the next
build, the first at which the exhausted column is consulted. -/
theorem C6_raise_fails_with_e :
    ∀ (α ε : Type) (ds : List (ZControl α ε)) (Ls : List (List α))
      (i : Nat) (e : ε) (L : List α),
      ds.length = Ls.length →
      ds[i]? = some (ZControl.exc e) → Ls[i]? = some L →
      (∀ (j : Nat) (d' : ZControl α ε) (L' : List α),
        ds[j]? = some d' → Ls[j]? = some L' → isAbort d' = true →
        L.length < L'.length ∨ (L'.length = L.length ∧ i ≤ j)) →
      ziplus (Ls.map ZArg.seq) (.seqArg ds) =
        .run (.raised (rowsC ds Ls L.length) e) ∧
      (rowsC ds Ls L.length).length = L.length := by
  intro α ε ds Ls i e L hlen hd hL hfirst
  have hitems : (Ls.map ZArg.seq).map ZArg.toItems = Ls := by
    rw [List.map_map]
    have hcomp : (ZArg.toItems ∘ ZArg.seq) = fun xs : List α => xs :=
      funext (fun xs => rfl)
    rw [hcomp]
    simp
  have hzipi : (List.zip ds Ls)[i]? = some (ZControl.exc e, L) :=
    zip_getElem?_of ds Ls i _ _ hd hL
  have hmem : (ZControl.exc e, L) ∈ List.zip ds Ls :=
    List.getElem?_mem hzipi
  have hmemLen : L.length ∈ abortLens ds Ls := by
    rw [mem_abortLens]
    exact ⟨(ZControl.exc e, L), hmem, by simp [isAbort], rfl⟩
  have hlb : ∀ u ∈ abortLens ds Ls, L.length ≤ u := by
    intro u hu
    obtain ⟨p, hp, hab, hplen⟩ := (mem_abortLens ds Ls u).mp hu
    obtain ⟨jj, hjj⟩ := List.mem_iff_getElem?.mp hp
    obtain ⟨hj1, hj2⟩ := zip_getElem?_inv ds Ls jj p hjj
    rcases hfirst jj p.1 p.2 hj1 hj2 hab with h | ⟨h, _⟩
    · omega
    · omega
  have hminA : minAbort ds Ls = some L.length := by
    cases hM : minAbort ds Ls with
    | none =>
      rw [minAbort_none_iff] at hM
      rw [hM] at hmemLen
      simp at hmemLen
    | some m =>
      obtain ⟨hmmem, hmle⟩ := minAbort_spec ds Ls m hM
      have h1 : m ≤ L.length := hmle _ hmemLen
      have h2 : L.length ≤ m := hlb m hmmem
      rw [show m = L.length by omega]
  have hizlt : i < (List.zip ds Ls).length :=
    lt_of_getElem?_eq_some _ _ _ hzipi
  have hgeti : (List.zip ds Ls).get ⟨i, hizlt⟩ = (ZControl.exc e, L) := by
    have := List.getElem?_eq_getElem hizlt
    rw [this] at hzipi
    simpa using hzipi
  have hfind : (List.zip ds Ls).find?
      (fun p => isAbort p.1 && p.2.length == L.length) =
      some (ZControl.exc e, L) := by
    rw [← hgeti]
    apply find?_eq_of_first (List.zip ds Ls) _ i hizlt
    · rw [hgeti]
      simp [isAbort]
    · intro j hj
      set q := (List.zip ds Ls).get ⟨j, by omega⟩ with hq
      have hqel : (List.zip ds Ls)[j]? = some q := by
        rw [List.getElem?_eq_getElem (by omega : j < (List.zip ds Ls).length)]
        simp [hq]
      obtain ⟨hq1, hq2⟩ := zip_getElem?_inv ds Ls j q hqel
      cases hab : isAbort q.1 with
      | false => simp [hab]
      | true =>
        rcases hfirst j q.1 q.2 hq1 hq2 hab with h | ⟨_, h⟩
        · simp only [hab, Bool.true_and]
          simp
          omega
        · omega
  constructor
  · rw [ziplus_seqArg_eq _ _ (by simp [hlen])]
    simp only [hitems]
    rw [closedRun_eq_closedFrom,
      closedFrom_some_exc ds Ls 0 L.length e L hminA hfind, rowsFromC_zero]
  · exact length_rowsC _ _ _

/-- C6 witness: `Raise("boom")` on the length-1 first column of
`[[1], [2, 3]]`; one row is yielded, then the run raises. -/
theorem C6_raise_witness :
    ziplus (([[1], [2, 3]] : List (List Nat)).map ZArg.seq)
      (DefaultsArg.seqArg [ZControl.exc "boom", ZControl.previous]) =
      .run (.raised (rowsC [ZControl.exc "boom", ZControl.previous]
        [[1], [2, 3]] 1) "boom") :=
  (C6_raise_fails_with_e Nat String [ZControl.exc "boom", ZControl.previous]
    [[1], [2, 3]] 0 "boom" [1] (by decide) (by decide) (by decide)
    (by
      intro j d' L' hj hL' hab
      have hjlt : j < 2 := by
        have := lt_of_getElem?_eq_some _ _ _ hj
        simpa using this
      match j, hjlt with
      | 0, _ =>
        right
        refine ⟨?_, le_refl 0⟩
        have : L' = [1] := by
          simpa using hL'.symm
        simp [this]
      | 1, _ =>
        have hd' : d' = ZControl.previous := by
          simpa using hj.symm
        rw [hd'] at hab
        simp [isAbort] at hab)).1

/-! ## C7: a Stop column ends everything at its own exhaustion step -/

/-- C7: if scanning a build reaches column `k` — no earlier column fires —
and column `k` is unstopped, empty, with a `StopIteration` default, then the
build returns `fullStop` at once: the whole run from this state yields no
row (`zrun = ok []`), the stop column contributes no filled value, and every
later column is left exactly as it was (no value is pulled from it). -/
theorem C7_stop_short_circuits :
    ∀ (α ε : Type) (cols : List (Column α ε)) (k : Nat) (c : Column α ε),
      cols[k]? = some c → c.default = ZControl.stopIt → c.stopped = false →
      c.rem = [] →
      (∀ (j : Nat) (cj : Column α ε), j < k → cols[j]? = some cj →
        colFires cj = false) →
      ∃ cols', zstep cols = .fullStop cols' ∧
        cols'.length = cols.length ∧
        (∀ m, k < m → cols'[m]? = cols[m]?) ∧
        zrun cols = .ok [] := by
  intro α ε cols
  induction cols with
  | nil =>
    intro k c hk
    simp at hk
  | cons c0 cs ih =>
    intro k c hk hdf hst hrem hprev
    cases k with
    | zero =>
      have hc : c0 = c := by simpa using hk
      subst hc
      have hstep : zstep (c0 :: cs) =
          .fullStop ({ c0 with stopped := true } :: cs) := by
        simp [zstep, hst, hrem, hdf]
      refine ⟨{ c0 with stopped := true } :: cs, hstep, by simp, ?_, ?_⟩
      · intro m hm
        obtain ⟨m', rfl⟩ : ∃ m', m = m' + 1 := ⟨m - 1, by omega⟩
        rw [List.getElem?_cons_succ, List.getElem?_cons_succ]
      · unfold zrun
        rw [hstep]
    | succ k' =>
      have h0 : colFires c0 = false :=
        hprev 0 c0 (by omega) (by simp)
      have hk' : cs[k']? = some c := by simpa using hk
      have hprev' : ∀ (j : Nat) (cj : Column α ε), j < k' →
          cs[j]? = some cj → colFires cj = false := by
        intro j cj hj hcj
        exact hprev (j + 1) cj (by omega) (by simpa using hcj)
      obtain ⟨cs', hstep', hlen', hsuf', _⟩ := ih k' c hk' hdf hst hrem hprev'
      have hstep : zstep (c0 :: cs) = .fullStop (advanceCol c0 :: cs') := by
        rw [zstep_cons_nofire c0 cs h0, hstep']
        rfl
      refine ⟨advanceCol c0 :: cs', hstep, by simp [hlen'], ?_, ?_⟩
      · intro m hm
        obtain ⟨m', rfl⟩ : ∃ m', m = m' + 1 := ⟨m - 1, by omega⟩
        rw [List.getElem?_cons_succ, List.getElem?_cons_succ]
        exact hsuf' m' (by omega)
      · unfold zrun
        rw [hstep]

/-- C7 witness: two columns, the first a freshly exhausted Stop column; the
second column (with one remaining element) is untouched. -/
theorem C7_stop_witness :
    ∃ cols', zstep [⟨ZControl.stopIt, [], false, Cell.noneV⟩,
        ⟨ZControl.previous, [5], false, Cell.noneV⟩] =
      StepOut.fullStop (α := Nat) (ε := String) cols' ∧
      cols'.length = 2 ∧
      (∀ m, 0 < m →
        cols'[m]? = [⟨ZControl.stopIt, [], false, Cell.noneV⟩,
          (⟨ZControl.previous, [5], false, Cell.noneV⟩ :
            Column Nat String)][m]?) ∧
      zrun [⟨ZControl.stopIt, [], false, Cell.noneV⟩,
        (⟨ZControl.previous, [5], false, Cell.noneV⟩ : Column Nat String)] =
        .ok [] :=
  C7_stop_short_circuits Nat String
    [⟨ZControl.stopIt, [], false, Cell.noneV⟩,
     ⟨ZControl.previous, [5], false, Cell.noneV⟩] 0
    ⟨ZControl.stopIt, [], false, Cell.noneV⟩
    (by decide) rfl rfl rfl (fun j cj hj _ => absurd hj (by omega))

/-! ## C8: scalars are one-element sequences -/

/-- C8: a scalar in any sequence position behaves exactly as the one-element
sequence holding it, for every surrounding argument list and every
`defaults` argument. -/
theorem C8_scalar_as_singleton :
    ∀ (α ε : Type) (pre post : List (ZArg α)) (a : α) (dfs : DefaultsArg α ε),
      ziplus (pre ++ ZArg.scalar a :: post) dfs =
      ziplus (pre ++ ZArg.seq [a] :: post) dfs := by
  intro α ε pre post a dfs
  have hlen : (pre ++ ZArg.scalar a :: post).length =
      (pre ++ ZArg.seq [a] :: post).length := by simp
  have hmap : (pre ++ ZArg.scalar a :: post).map ZArg.toItems =
      (pre ++ ZArg.seq [a] :: post).map ZArg.toItems := by
    simp [ZArg.toItems]
  unfold ziplus
  rw [hlen, hmap]

/-! ## C9: Previous on a first-pull-exhausted column gives None -/

/-- C9: when a column's sequence is already empty at the very first pull and
its policy is `Previous`, then — whenever a first row exists at all — that
row holds `None` in this column, there being no preceding row to borrow
from. -/
theorem C9_first_row_previous_none :
    ∀ (α ε : Type) (ds : List (ZControl α ε)) (Ls : List (List α)) (i : Nat)
      (row : List (Cell α)) (rest : List (List (Cell α))),
      ds.length = Ls.length →
      ds[i]? = some ZControl.previous → Ls[i]? = some ([] : List α) →
      (ziplus (Ls.map ZArg.seq) (.seqArg ds)).rows = row :: rest →
      row[i]? = some Cell.noneV := by
  intro α ε ds Ls i row rest hlen hd hL hrows
  have hitems : (Ls.map ZArg.seq).map ZArg.toItems = Ls := by
    rw [List.map_map]
    have hcomp : (ZArg.toItems ∘ ZArg.seq) = fun xs : List α => xs :=
      funext (fun xs => rfl)
    rw [hcomp]
    simp
  rw [ziplus_seqArg_eq _ _ (by simp [hlen])] at hrows
  simp only [hitems] at hrows
  have hrow0 : (closedRun ds Ls).rows[0]? = some row := by
    have hcr : (closedRun ds Ls).rows = row :: rest := hrows
    rw [hcr, List.getElem?_cons_zero]
  obtain ⟨k, hk⟩ := closedRun_rows_shape ds Ls
  rw [hk] at hrow0
  obtain ⟨_, rfl⟩ := rowsC_getElem _ _ _ _ _ hrow0
  rw [rowC_getElem _ _ _ _ _ _ hd hL]
  rfl

/-- C9 witness: first column empty with `Previous`, second column `[7]`; the
single produced row holds `None` in column 0. -/
theorem C9_first_row_witness :
    [Cell.noneV, Cell.elem 7][0]? = some (Cell.noneV (α := Nat)) :=
  C9_first_row_previous_none Nat String
    [ZControl.previous, ZControl.previous] [[], [7]] 0
    [Cell.noneV, Cell.elem 7] [] (by decide) (by decide) (by decide)
    (by
      rw [ziplus_seqArg_eq _ _ rfl]
      decide)

/-! ## C10: live columns always carry their own elements -/

/-- C10: in every yielded row, a column whose sequence still had an element
at that step carries exactly that element — the pre-exhaustion values of
column `i` are precisely the elements of sequence `i` in order, whatever the
policies (given explicitly, or omitted). -/
theorem C10_live_columns_unaltered :
    (∀ (α ε : Type) (ds : List (ZControl α ε)) (Ls : List (List α))
      (i j : Nat) (L : List α) (row : List (Cell α)),
      ds.length = Ls.length →
      Ls[i]? = some L →
      (ziplus (Ls.map ZArg.seq) (.seqArg ds)).rows[j]? = some row →
      ∀ hj : j < L.length, row[i]? = some (Cell.elem (L.get ⟨j, hj⟩))) ∧
    (∀ (α ε : Type) (Ls : List (List α)) (i j : Nat) (L : List α)
      (row : List (Cell α)),
      Ls[i]? = some L →
      (ziplus (Ls.map ZArg.seq)
        (DefaultsArg.noneArg (α := α) (ε := ε))).rows[j]? = some row →
      ∀ hj : j < L.length, row[i]? = some (Cell.elem (L.get ⟨j, hj⟩))) := by
  have hitems : ∀ (α : Type) (Ls : List (List α)),
      (Ls.map ZArg.seq).map ZArg.toItems = Ls := by
    intro α Ls
    rw [List.map_map]
    have hcomp : (ZArg.toItems ∘ ZArg.seq) = fun xs : List α => xs :=
      funext (fun xs => rfl)
    rw [hcomp]
    simp
  constructor
  · intro α ε ds Ls i j L row hlen hL hrow hj
    rw [ziplus_seqArg_eq _ _ (by simp [hlen])] at hrow
    simp only [hitems] at hrow
    have hrow2 : (closedRun ds Ls).rows[j]? = some row := hrow
    obtain ⟨k, hk⟩ := closedRun_rows_shape ds Ls
    rw [hk] at hrow2
    obtain ⟨_, rfl⟩ := rowsC_getElem _ _ _ _ _ hrow2
    have hiL : i < Ls.length := lt_of_getElem?_eq_some _ _ _ hL
    have hd : ds[i]? = some (ds.get ⟨i, by omega⟩) := by
      rw [List.getElem?_eq_getElem (by omega : i < ds.length)]
      rfl
    rw [rowC_getElem _ _ _ _ _ _ hd hL]
    simp [cellC, List.getElem?_eq_getElem hj]
  · intro α ε Ls i j L row hL hrow hj
    rw [ziplus_noneArg_eq] at hrow
    simp only [hitems] at hrow
    rw [show (Ls.map ZArg.seq).length = Ls.length by simp] at hrow
    have hrow2 : (closedRun (List.replicate Ls.length
        (ZControl.stopIt (α := α) (ε := ε))) Ls).rows[j]? = some row := hrow
    obtain ⟨k, hk⟩ := closedRun_rows_shape
      (List.replicate Ls.length (ZControl.stopIt (α := α) (ε := ε))) Ls
    rw [hk] at hrow2
    obtain ⟨_, rfl⟩ := rowsC_getElem _ _ _ _ _ hrow2
    have hiL : i < Ls.length := lt_of_getElem?_eq_some _ _ _ hL
    have hd : (List.replicate Ls.length
        (ZControl.stopIt (α := α) (ε := ε)))[i]? = some ZControl.stopIt := by
      simp [List.getElem?_replicate, hiL]
    rw [rowC_getElem _ _ _ _ _ _ hd hL]
    simp [cellC, List.getElem?_eq_getElem hj]

/-- C10 witness: the Constant-policy run of `[[1,2,3],[5]]` carries `2` in
row 1, column 0 — the live column is unaltered by the fill policies. -/
theorem C10_live_columns_witness :
    [Cell.elem 2, Cell.elem 9][0]? = some (Cell.elem (α := Nat) 2) :=
  C10_live_columns_unaltered.1 Nat String
    [ZControl.stopIt, ZControl.val (Cell.elem 9)] [[1, 2, 3], [5]] 0 1
    [1, 2, 3] [Cell.elem 2, Cell.elem 9] (by decide) (by decide)
    (by
      rw [ziplus_seqArg_eq _ _ rfl]
      decide)
    (by decide)
